import Mathlib

/-!
Shallow embedding of the snack rating dashboard
(`src/snack_dashboard_old.py` and `src/snack_dashboard(1).py`).

The statistical core of both scripts is embedded here over exact rationals:

* cleaning (`load_data`): drop rows with a missing name, snack id or rating,
  coerce ratings to numbers, drop rows where coercion fails;
* aggregation (`snack_avgs`): per-snack per-category means rounded to two
  decimals, a combined average of those rounded means, and a descending sort
  by the combined average;
* similarity (`person_snack`, `dist_matrix`, `most_similar`, `least_similar`):
  a person-by-snack affinity grid with global-mean imputation, a normalized
  cityblock distance matrix with the diagonal excluded, and the
  nearest/farthest queries, guarded by the "at least 2 people" check.

Both source versions share this code shape; they differ only in the grouping
key of the snack axis (the old script groups by the raw snack id, the new one
by the display label `snack_label`), so every definition below is
parameterized by a key function `key : String -> String` applied to the
snack id of a record.

Modelling conventions:

* machine floats become `Rat`; `round(x, 2)` / pandas `.round(2)` becomes
  `round2`, rounding half away from zero upward at the second decimal
  (ties never occur in any concrete value analysed here, so the half-even
  convention of numpy agrees with `round2` on all of them);
* pandas `groupby` sorts its keys; here the distinct-key lists
  (`snack_keys`, `people_of`) are `List.dedup` of the key column instead.
  Every quantity below that feeds a theorem (sums over the keys, their
  count, membership, and the ordering of the concrete examples, in which
  no key repeats and the rows are already listed in sorted key order) is
  unchanged by that permutation;
* `sort_values(..., ascending=False)` goes through pandas `nargsort`, which
  for a descending key reverses the rows, argsorts them ascending with a
  stable kernel (numpy argsort is insertion sort, hence stable, at the
  sizes analysed here), and reverses the resulting indexer again, so rows
  with equal keys keep their pre-sort order; `snack_avgs` below mirrors
  this as reverse, stable insertion sort, reverse;
* `idxmin` / `idxmax` return the first index attaining the extremum, with
  `NaN` entries (the filled diagonal) skipped: `argmin_first` /
  `argmax_first` over the other people.
-/

namespace SnackDash

/-- One cleaned rating row: a person, a snack id, and one numeric score per
rating category (`RATING_COLS` = flavour, texture, snackability,
originality). -/
structure Record where
  person : String
  snack : String
  flavour : ℚ
  texture : ℚ
  snackability : ℚ
  originality : ℚ
deriving DecidableEq

/-- The score of a record in category `i`, in the fixed `RATING_COLS`
order. -/
def Record.score (r : Record) : Fin 4 → ℚ
  | 0 => r.flavour
  | 1 => r.texture
  | 2 => r.snackability
  | 3 => r.originality

/-- The four scores of a record as a list, in `RATING_COLS` order. -/
def Record.scoreList (r : Record) : List ℚ :=
  [r.flavour, r.texture, r.snackability, r.originality]

/-- A raw spreadsheet cell: empty (`NaN` after `read_csv`), a numeric value
(or numeric-looking string, already parsed), or a non-numeric string. -/
inductive RawVal where
  | missing : RawVal
  | numeric (q : ℚ) : RawVal
  | nonNumeric (s : String) : RawVal
deriving DecidableEq

/-- Whether a raw cell is empty; `dropna` removes rows whose cell is. -/
def RawVal.isMissing : RawVal → Bool
  | .missing => true
  | _ => false

/-- `pd.to_numeric(col, errors="coerce")` on one cell: numeric values pass
through, everything else becomes `NaN` (here `none`). -/
def to_numeric : RawVal → Option ℚ
  | .numeric q => some q
  | _ => none

/-- One raw spreadsheet row: the name and snack-id cells (already strings if
present) and the four rating cells. -/
structure RawRow where
  person : Option String
  snack : Option String
  rating : Fin 4 → RawVal

/-- The first `dropna(subset=[COL_NAME, COL_SNACK] + RATING_COLS)`: the name
and snack cells are present and no rating cell is empty. -/
def row_complete (row : RawRow) : Bool :=
  row.person.isSome && row.snack.isSome &&
    !(row.rating 0).isMissing && !(row.rating 1).isMissing &&
    !(row.rating 2).isMissing && !(row.rating 3).isMissing

/-- Coercion of the rating cells with `to_numeric` followed by the second
`dropna(subset=RATING_COLS)`: the row survives exactly when every rating
cell coerces to a number. -/
def coerce_row (row : RawRow) : Option Record := do
  let p ← row.person
  let s ← row.snack
  let q0 ← to_numeric (row.rating 0)
  let q1 ← to_numeric (row.rating 1)
  let q2 ← to_numeric (row.rating 2)
  let q3 ← to_numeric (row.rating 3)
  pure ⟨p, s, q0, q1, q2, q3⟩

/-- `load_data` without the I/O: first `dropna` over name, snack and rating
columns, then `to_numeric(errors="coerce")` on each rating column, then the
second `dropna` over the rating columns. -/
def load_data (rows : List RawRow) : List Record :=
  (rows.filter row_complete).filterMap coerce_row

/-- A row every cell of which is usable: name and snack present, every
rating cell numeric.  `load_data` keeps exactly these rows. -/
def row_valid (row : RawRow) : Bool :=
  row.person.isSome && row.snack.isSome &&
    (to_numeric (row.rating 0)).isSome && (to_numeric (row.rating 1)).isSome &&
    (to_numeric (row.rating 2)).isSome && (to_numeric (row.rating 3)).isSome

/-- Arithmetic mean of a list of rationals (pandas `mean`).  Only ever
applied to nonempty lists in the pipeline. -/
def list_mean (l : List ℚ) : ℚ := l.sum / l.length

/-- Rounding to two decimal places (`round(x, 2)` / pandas `.round(2)`),
half rounded up. -/
def round2 (q : ℚ) : ℚ := (⌊100 * q + 1 / 2⌋ : ℚ) / 100

/-- Sum of a function over the four rating categories in `RATING_COLS`
order (the row-wise part of `.mean(axis=1)`). -/
def cat_sum (f : Fin 4 → ℚ) : ℚ := f 0 + f 1 + f 2 + f 3

/-- The snack-name lookup table of the new script: pairs of an (already
stripped) snack id and a display name. -/
def SnackNames : Type := List (String × String)

/-- `snack_label` of the new script: look the stripped id up in the names
table and render `"name (id)"`, falling back to the raw id when the id is
unknown or its name is empty (Python's `if name` is false on `""`). -/
def snack_label (names : SnackNames) (sid : String) : String :=
  match List.lookup sid.trim names with
  | some n => if n = "" then sid else n ++ " (" ++ sid ++ ")"
  | none => sid

/-- The distinct grouping keys of the snack axis, one per `groupby` group
(old script: raw snack ids; new script: snack labels). -/
def snack_keys (key : String → String) (recs : List Record) : List String :=
  (recs.map fun r => key r.snack).dedup

/-- The `groupby` group of one snack key: all records whose keyed snack id
equals it. -/
def snack_group (key : String → String) (recs : List Record) (s : String) :
    List Record :=
  recs.filter fun r => key r.snack == s

/-- Per-snack per-category mean before rounding:
`df.groupby(key)[RATING_COLS].mean()` at snack `s`, category `i`. -/
def cat_avg (key : String → String) (recs : List Record) (s : String)
    (i : Fin 4) : ℚ :=
  list_mean ((snack_group key recs s).map fun r => r.score i)

/-- The category mean as stored and displayed: rounded to two decimals by
the `.round(2)` directly after the `groupby(...).mean()`. -/
def cat_avg_rounded (key : String → String) (recs : List Record) (s : String)
    (i : Fin 4) : ℚ :=
  round2 (cat_avg key recs s i)

/-- The "Combined Average" column:
`snack_avgs[RATING_LABELS].mean(axis=1).round(2)`, the mean of the four
already-rounded category means, rounded again. -/
def combined_average (key : String → String) (recs : List Record)
    (s : String) : ℚ :=
  round2 (cat_sum (cat_avg_rounded key recs s) / 4)

/-- What the spec asks the combined average to be: the mean of the four
unrounded category means, rounded exactly once (stated from the spec's
words, to compare with `combined_average`). -/
def combined_round_once (key : String → String) (recs : List Record)
    (s : String) : ℚ :=
  round2 (cat_sum (cat_avg key recs s) / 4)

/-- One row of the `snack_avgs` table: the snack key, the four rounded
category means, and the combined average. -/
structure SnackRow where
  snack : String
  avgs : Fin 4 → ℚ
  combined : ℚ

/-- The `snack_avgs` row of one snack key. -/
def snack_row (key : String → String) (recs : List Record) (s : String) :
    SnackRow :=
  ⟨s, cat_avg_rounded key recs s, combined_average key recs s⟩

/-- The `snack_avgs` table before `sort_values`: one row per distinct snack
key, in `groupby` order. -/
def snack_rows (key : String → String) (recs : List Record) : List SnackRow :=
  (snack_keys key recs).map (snack_row key recs)

/-- Ascending comparison on the sort key of `sort_values("Combined
Average")`. -/
def row_le (a b : SnackRow) : Prop := a.combined ≤ b.combined

instance : DecidableRel row_le :=
  fun a b => inferInstanceAs (Decidable (a.combined ≤ b.combined))

instance : IsTotal SnackRow row_le := ⟨fun a b => le_total a.combined b.combined⟩

instance : IsTrans SnackRow row_le := ⟨fun _ _ _ h h' => le_trans h h'⟩

/-- `snack_avgs.sort_values("Combined Average", ascending=False)`: pandas
`nargsort` reverses the rows, argsorts them ascending (stably, at these
sizes), and reverses the resulting indexer, which keeps equal-key rows in
their pre-sort order. -/
def snack_avgs (key : String → String) (recs : List Record) : List SnackRow :=
  ((snack_rows key recs).reverse.insertionSort row_le).reverse

/-- The scalar `df[RATING_COLS].stack().mean()` used by `fillna`: the mean
of every individual category score of every cleaned record. -/
def global_mean (recs : List Record) : ℚ :=
  list_mean (recs.flatMap Record.scoreList)

/-- The `groupby([COL_NAME, key])` group of one (person, snack-key) cell of
the person-by-snack grid. -/
def pair_group (key : String → String) (recs : List Record) (p s : String) :
    List Record :=
  recs.filter fun r => r.person == p && key r.snack == s

/-- One cell of `person_snack`: per-category means over the (person, snack)
group, averaged over the four categories (`.mean().mean(axis=1)`), with the
empty cells of the unstacked grid filled by `fillna` with `global_mean`. -/
def person_snack (key : String → String) (recs : List Record) (p s : String) :
    ℚ :=
  let g := pair_group key recs p s
  if g.isEmpty then global_mean recs
  else cat_sum (fun i => list_mean (g.map fun r => r.score i)) / 4

/-- The distinct people of the cleaned data (`df[COL_NAME].nunique()` counts
this list; the grid of `person_snack` has one row per entry). -/
def people_of (recs : List Record) : List String :=
  (recs.map fun r => r.person).dedup

/-- One row of the `person_snack` grid: the affinity vector of one person
over all distinct snack keys, in column order. -/
def person_vector (key : String → String) (recs : List Record) (p : String) :
    List ℚ :=
  (snack_keys key recs).map (person_snack key recs p)

/-- Manhattan distance of two aligned vectors (`cdist(..,
metric="cityblock")` on one pair of rows). -/
def cityblock (u v : List ℚ) : ℚ :=
  (List.zipWith (fun a b => |a - b|) u v).sum

/-- One entry of `dist_matrix`: the cityblock distance of the two affinity
vectors divided by `person_snack.shape[1]`, the number of distinct snack
keys. -/
def dist_matrix (key : String → String) (recs : List Record) (p q : String) :
    ℚ :=
  cityblock (person_vector key recs p) (person_vector key recs q) /
    (snack_keys key recs).length

/-- The distance the spec describes: align the two affinity vectors over the
union of all distinct snack keys, sum the absolute per-snack differences,
divide by the total distinct snack count (stated from the spec's words, to
compare with `dist_matrix`). -/
def spec_distance (key : String → String) (recs : List Record) (p q : String) :
    ℚ :=
  ((snack_keys key recs).map fun s =>
      |person_snack key recs p s - person_snack key recs q s|).sum /
    (snack_keys key recs).length

/-- First element of the list attaining the minimum of `f` (`idxmin` scans
the columns left to right and keeps the first minimum). -/
def argmin_first (f : α → ℚ) : List α → Option α
  | [] => none
  | a :: l =>
    match argmin_first f l with
    | none => some a
    | some b => if f b < f a then some b else some a

/-- First element of the list attaining the maximum of `f` (`idxmax`). -/
def argmax_first (f : α → ℚ) : List α → Option α
  | [] => none
  | a :: l =>
    match argmax_first f l with
    | none => some a
    | some b => if f a < f b then some b else some a

/-- `dist_matrix.loc[p].idxmin()` after the diagonal is filled with `NaN`:
the first other person at minimal distance from `p` (`idxmin` skips `NaN`,
so the queried person is never a candidate). -/
def most_similar (key : String → String) (recs : List Record) (p : String) :
    Option String :=
  argmin_first (dist_matrix key recs p) ((people_of recs).filter fun q => !(q == p))

/-- `dist_matrix.loc[p].idxmax()` after the diagonal is filled with `NaN`:
the first other person at maximal distance from `p`. -/
def least_similar (key : String → String) (recs : List Record) (p : String) :
    Option String :=
  argmax_first (dist_matrix key recs p) ((people_of recs).filter fun q => !(q == p))

/-- Everything the similarity section computes once the guard passes. -/
structure SimOutput where
  people : List String
  matrix : String → String → ℚ
  most : String → Option String
  least : String → Option String

/-- The similarity section of both scripts: behind the guard
`df[COL_NAME].nunique() < 2` (which shows the insufficient-data notice and
computes nothing), build the grid, the distance matrix and the
nearest/farthest queries. -/
def similarity_results (key : String → String) (recs : List Record) :
    Option SimOutput :=
  if (people_of recs).length < 2 then none
  else some ⟨people_of recs, dist_matrix key recs,
             most_similar key recs, least_similar key recs⟩

/-! ### Helper lemmas -/

theorem coerce_row_eq_none {row : RawRow} (h : row_valid row = false) :
    coerce_row row = none := by
  unfold coerce_row
  cases hp : row.person with
  | none => rfl
  | some p =>
    cases hs : row.snack with
    | none => rfl
    | some s =>
      cases h0 : to_numeric (row.rating 0) with
      | none => rfl
      | some q0 =>
        cases h1 : to_numeric (row.rating 1) with
        | none => rfl
        | some q1 =>
          cases h2 : to_numeric (row.rating 2) with
          | none => rfl
          | some q2 =>
            cases h3 : to_numeric (row.rating 3) with
            | none => rfl
            | some q3 =>
              exfalso
              simp [row_valid, hp, hs, h0, h1, h2, h3] at h

theorem cityblock_map (f g : String → ℚ) (l : List String) :
    cityblock (l.map f) (l.map g) = (l.map fun s => |f s - g s|).sum := by
  induction l with
  | nil => rfl
  | cons a l ih =>
    simp only [List.map_cons, cityblock, List.zipWith_cons_cons, List.sum_cons]
    simp only [cityblock] at ih
    rw [ih]

theorem cityblock_comm (u v : List ℚ) : cityblock u v = cityblock v u := by
  unfold cityblock
  rw [List.zipWith_comm_of_comm _ (fun x y => abs_sub_comm x y)]

theorem cityblock_self (u : List ℚ) : cityblock u u = 0 := by
  induction u with
  | nil => rfl
  | cons a u ih =>
    simp only [cityblock, List.zipWith_cons_cons, List.sum_cons] at ih ⊢
    simp [ih]

theorem cityblock_nonneg (u : List ℚ) : ∀ v : List ℚ, 0 ≤ cityblock u v := by
  induction u with
  | nil => intro v; cases v <;> simp [cityblock]
  | cons a u ih =>
    intro v
    cases v with
    | nil => simp [cityblock]
    | cons b v =>
      have h1 := ih v
      have h2 : (0 : ℚ) ≤ |a - b| := abs_nonneg _
      simp only [cityblock, List.zipWith_cons_cons, List.sum_cons] at h1 ⊢
      linarith

theorem argmin_first_mem {f : α → ℚ} :
    ∀ {l : List α} {a : α}, argmin_first f l = some a → a ∈ l
  | [], a, h => by simp [argmin_first] at h
  | b :: l, a, h => by
    rw [argmin_first] at h
    revert h
    cases hrec : argmin_first f l with
    | none =>
      intro h
      rw [← Option.some.inj h]
      exact List.mem_cons_self _ _
    | some c =>
      intro h
      have h' : (if f c < f b then some c else some b) = some a := h
      by_cases hlt : f c < f b
      · rw [if_pos hlt] at h'
        rw [← Option.some.inj h']
        exact List.mem_cons_of_mem _ (argmin_first_mem hrec)
      · rw [if_neg hlt] at h'
        rw [← Option.some.inj h']
        exact List.mem_cons_self _ _

theorem argmax_first_mem {f : α → ℚ} :
    ∀ {l : List α} {a : α}, argmax_first f l = some a → a ∈ l
  | [], a, h => by simp [argmax_first] at h
  | b :: l, a, h => by
    rw [argmax_first] at h
    revert h
    cases hrec : argmax_first f l with
    | none =>
      intro h
      rw [← Option.some.inj h]
      exact List.mem_cons_self _ _
    | some c =>
      intro h
      have h' : (if f b < f c then some c else some b) = some a := h
      by_cases hlt : f b < f c
      · rw [if_pos hlt] at h'
        rw [← Option.some.inj h']
        exact List.mem_cons_of_mem _ (argmax_first_mem hrec)
      · rw [if_neg hlt] at h'
        rw [← Option.some.inj h']
        exact List.mem_cons_self _ _

theorem argmin_first_eq_none {f : α → ℚ} :
    ∀ {l : List α}, argmin_first f l = none → l = []
  | [], _ => rfl
  | b :: l, h => by
    rw [argmin_first] at h
    revert h
    cases hrec : argmin_first f l with
    | none => intro h; exact Option.noConfusion h
    | some c =>
      intro h
      have h' : (if f c < f b then some c else some b) = none := h
      by_cases hlt : f c < f b
      · rw [if_pos hlt] at h'
        exact Option.noConfusion h'
      · rw [if_neg hlt] at h'
        exact Option.noConfusion h' 

theorem argmin_first_le {f : α → ℚ} :
    ∀ {l : List α} {a : α}, argmin_first f l = some a → ∀ b ∈ l, f a ≤ f b
  | [], a, h => by simp [argmin_first] at h
  | c :: l, a, h => by
    rw [argmin_first] at h
    revert h
    cases hrec : argmin_first f l with
    | none =>
      intro h
      rw [← Option.some.inj h]
      have hl : l = [] := argmin_first_eq_none hrec
      subst hl
      intro b hb
      rcases List.mem_singleton.mp hb with rfl
      exact le_refl _
    | some c' =>
      intro h
      have h' : (if f c' < f c then some c' else some c) = some a := h
      by_cases hlt : f c' < f c
      · rw [if_pos hlt] at h'
        rw [← Option.some.inj h']
        intro b hb
        rcases List.mem_cons.mp hb with rfl | hb'
        · exact le_of_lt hlt
        · exact argmin_first_le hrec b hb'
      · rw [if_neg hlt] at h'
        rw [← Option.some.inj h']
        intro b hb
        rcases List.mem_cons.mp hb with rfl | hb'
        · exact le_refl _
        · exact le_trans (not_lt.mp hlt) (argmin_first_le hrec b hb')

theorem argmin_first_isSome {f : α → ℚ} {l : List α} (h : l ≠ []) :
    ∃ a, argmin_first f l = some a := by
  cases l with
  | nil => exact absurd rfl h
  | cons b l =>
    rw [argmin_first]
    cases argmin_first f l with
    | none => exact ⟨b, rfl⟩
    | some c =>
      by_cases hlt : f c < f b
      · exact ⟨c, if_pos hlt⟩
      · exact ⟨b, if_neg hlt⟩

theorem list_mean_le {l : List ℚ} {hi : ℚ} (hne : l ≠ [])
    (h : ∀ x ∈ l, x ≤ hi) : list_mean l ≤ hi := by
  have hn : 0 < (l.length : ℚ) := by exact_mod_cast List.length_pos.mpr hne
  rw [list_mean, div_le_iff hn]
  calc l.sum ≤ l.length • hi := List.sum_le_card_nsmul l hi h
    _ = hi * l.length := by rw [nsmul_eq_mul]; ring

theorem le_list_mean {l : List ℚ} {lo : ℚ} (hne : l ≠ [])
    (h : ∀ x ∈ l, lo ≤ x) : lo ≤ list_mean l := by
  have hn : 0 < (l.length : ℚ) := by exact_mod_cast List.length_pos.mpr hne
  rw [list_mean, le_div_iff hn]
  calc lo * l.length = l.length • lo := by rw [nsmul_eq_mul]; ring
    _ ≤ l.sum := List.card_nsmul_le_sum l lo h

theorem scoreList_sum_flatMap :
    ∀ recs : List Record,
      (recs.flatMap Record.scoreList).sum = (recs.map fun r => r.scoreList.sum).sum
  | [] => rfl
  | r :: recs => by
    simp only [List.flatMap_cons, List.sum_append, List.map_cons, List.sum_cons,
      scoreList_sum_flatMap recs]

theorem scoreList_length_flatMap :
    ∀ recs : List Record, (recs.flatMap Record.scoreList).length = 4 * recs.length
  | [] => rfl
  | r :: recs => by
    simp only [List.flatMap_cons, List.length_append, List.length_cons,
      scoreList_length_flatMap recs, Record.scoreList, List.length_nil]
    omega

theorem dedup_map_of_injOn {f : String → String} :
    ∀ {l : List String},
      (∀ a ∈ l, ∀ b ∈ l, f a = f b → a = b) → (l.map f).dedup = l.dedup.map f
  | [], _ => rfl
  | a :: l, H => by
    have Hsub : ∀ x ∈ l, ∀ y ∈ l, f x = f y → x = y := fun x hx y hy =>
      H x (List.mem_cons_of_mem a hx) y (List.mem_cons_of_mem a hy)
    by_cases hm : a ∈ l
    · have hf : f a ∈ l.map f := List.mem_map_of_mem f hm
      rw [List.map_cons, List.dedup_cons_of_mem hf, List.dedup_cons_of_mem hm,
        dedup_map_of_injOn Hsub]
    · have hf : f a ∉ l.map f := by
        intro hc
        rcases List.mem_map.mp hc with ⟨b, hb, hfb⟩
        exact hm (H b (List.mem_cons_of_mem a hb) a (List.mem_cons_self a l) hfb ▸ hb)
      rw [List.map_cons, List.dedup_cons_of_not_mem hf, List.dedup_cons_of_not_mem hm,
        List.map_cons, dedup_map_of_injOn Hsub]

theorem pair_group_label {f : String → String} {recs : List Record}
    (H : ∀ a ∈ recs.map (fun r => r.snack), ∀ b ∈ recs.map (fun r => r.snack),
        f a = f b → a = b)
    {p s : String} (hs : s ∈ recs.map (fun r => r.snack)) :
    pair_group f recs p (f s) = pair_group (fun t => t) recs p s := by
  unfold pair_group
  refine List.filter_congr fun r hr => ?_
  have hrs : r.snack ∈ recs.map (fun r => r.snack) := List.mem_map_of_mem _ hr
  by_cases he : r.snack = s
  · simp [he]
  · have hfe : f r.snack ≠ f s := fun hc => he (H _ hrs _ hs hc)
    have h1 : (f r.snack == f s) = false := beq_eq_false_iff_ne.mpr hfe
    have h2 : (r.snack == s) = false := beq_eq_false_iff_ne.mpr he
    rw [h1, h2]

theorem person_snack_label {f : String → String} {recs : List Record}
    (H : ∀ a ∈ recs.map (fun r => r.snack), ∀ b ∈ recs.map (fun r => r.snack),
        f a = f b → a = b)
    {p s : String} (hs : s ∈ recs.map (fun r => r.snack)) :
    person_snack f recs p (f s) = person_snack (fun t => t) recs p s := by
  unfold person_snack
  rw [pair_group_label H hs]

theorem snack_keys_label {f : String → String} {recs : List Record}
    (H : ∀ a ∈ recs.map (fun r => r.snack), ∀ b ∈ recs.map (fun r => r.snack),
        f a = f b → a = b) :
    snack_keys f recs = (snack_keys (fun t => t) recs).map f := by
  unfold snack_keys
  have h1 : (recs.map fun r => f r.snack) = (recs.map fun r => r.snack).map f := by
    rw [List.map_map]
    rfl
  rw [h1, dedup_map_of_injOn H]

theorem person_vector_label {f : String → String} {recs : List Record}
    (H : ∀ a ∈ recs.map (fun r => r.snack), ∀ b ∈ recs.map (fun r => r.snack),
        f a = f b → a = b) (p : String) :
    person_vector f recs p = person_vector (fun t => t) recs p := by
  unfold person_vector
  rw [snack_keys_label H, List.map_map]
  refine List.map_congr_left fun s hsk => ?_
  have h2 : s ∈ (recs.map fun r => r.snack).dedup := by
    simpa [snack_keys] using hsk
  exact person_snack_label H (List.mem_dedup.mp h2)

theorem orderedInsert_filter_same {a : SnackRow} {c : ℚ} (ha : a.combined = c) :
    ∀ l : List SnackRow,
      (List.orderedInsert row_le a l).filter (fun row => row.combined == c) =
        a :: l.filter (fun row => row.combined == c)
  | [] => by
    subst ha
    simp [List.orderedInsert, List.filter_cons]
  | b :: l => by
    subst ha
    rw [List.orderedInsert]
    by_cases hle : row_le a b
    · rw [if_pos hle, List.filter_cons]
      simp
    · have hlt : b.combined < a.combined := not_le.mp hle
      have hbc : (b.combined == a.combined) = false :=
        beq_eq_false_iff_ne.mpr (ne_of_lt hlt)
      rw [if_neg hle, List.filter_cons, hbc]
      simp only [Bool.false_eq_true, if_false]
      rw [orderedInsert_filter_same rfl l, List.filter_cons, hbc]
      simp

theorem orderedInsert_filter_other {a : SnackRow} {c : ℚ}
    (ha : (a.combined == c) = false) :
    ∀ l : List SnackRow,
      (List.orderedInsert row_le a l).filter (fun row => row.combined == c) =
        l.filter (fun row => row.combined == c)
  | [] => by simp [List.orderedInsert, List.filter_cons, ha]
  | b :: l => by
    rw [List.orderedInsert]
    by_cases hle : row_le a b
    · rw [if_pos hle, List.filter_cons, ha]
      simp
    · rw [if_neg hle, List.filter_cons, List.filter_cons,
        orderedInsert_filter_other ha l]

theorem insertionSort_filter_combined (c : ℚ) :
    ∀ l : List SnackRow,
      (l.insertionSort row_le).filter (fun row => row.combined == c) =
        l.filter (fun row => row.combined == c)
  | [] => rfl
  | a :: l => by
    rw [List.insertionSort]
    by_cases ha : a.combined = c
    · rw [orderedInsert_filter_same ha, insertionSort_filter_combined c l,
        List.filter_cons]
      subst ha
      simp
    · have ha' : (a.combined == c) = false := beq_eq_false_iff_ne.mpr ha
      rw [orderedInsert_filter_other ha', insertionSort_filter_combined c l,
        List.filter_cons, ha']
      simp

theorem snack_avgs_filter_combined (key : String → String)
    (recs : List Record) (c : ℚ) :
    (snack_avgs key recs).filter (fun row => row.combined == c) =
      (snack_rows key recs).filter (fun row => row.combined == c) := by
  unfold snack_avgs
  rw [List.filter_reverse, insertionSort_filter_combined, List.filter_reverse,
    List.reverse_reverse]

/-! ### Claim theorems -/

/-- C8: cleaning drops a raw row entirely as soon as its person cell or its
snack cell is missing or any rating cell is missing or non-numeric; the
cleaned record sequence (hence every aggregate computed from it) is the same
as if the row had not been there at all. -/
theorem load_data_drops_invalid_row (xs ys : List RawRow) (row : RawRow)
    (h : row_valid row = false) :
    load_data (xs ++ row :: ys) = load_data (xs ++ ys) := by
  unfold load_data
  by_cases hc : row_complete row = true
  · have hnone := coerce_row_eq_none h
    simp [List.filter_append, List.filter_cons, hc, List.filterMap_append,
      List.filterMap_cons, hnone]
  · simp [List.filter_append, List.filter_cons, hc]

/-- C8 witness: a row whose rating cells hold the non-numeric string
"great" is dropped bodily from between two valid rows. -/
theorem load_data_drops_invalid_row_witness :
    row_valid ⟨some "A", some "S1", fun _ => RawVal.nonNumeric "great"⟩ = false ∧
    load_data ([⟨some "A", some "S1", fun _ => RawVal.numeric 5⟩] ++
        (⟨some "A", some "S1", fun _ => RawVal.nonNumeric "great"⟩ : RawRow) ::
          [⟨some "B", some "S2", fun _ => RawVal.numeric 1⟩]) =
      load_data ([⟨some "A", some "S1", fun _ => RawVal.numeric 5⟩] ++
        [⟨some "B", some "S2", fun _ => RawVal.numeric 1⟩]) :=
  ⟨rfl, load_data_drops_invalid_row _ _ _ rfl⟩

/-- C3: the similarity section computes nothing and signals the
insufficient-data condition exactly when the cleaned data holds fewer than 2
distinct people; with 2 or more people it proceeds and returns the full
output. -/
theorem similarity_insufficient_data (key : String → String)
    (recs : List Record) :
    similarity_results key recs = none ↔ (people_of recs).length < 2 := by
  unfold similarity_results
  by_cases h : (people_of recs).length < 2
  · simp [h]
  · simp [h]

/-- C2: every entry of the distance matrix is the Manhattan (cityblock)
distance of the two imputed affinity vectors aligned over all distinct
snacks, divided by the total number of distinct snacks; on the spec's
two-record example the distance between A and B is 4. -/
theorem dist_matrix_eq_spec_distance :
    (∀ (key : String → String) (recs : List Record) (p q : String),
      dist_matrix key recs p q = spec_distance key recs p q) ∧
    dist_matrix (fun t => t)
      [⟨"A", "S1", 5, 5, 5, 5⟩, ⟨"B", "S1", 1, 1, 1, 1⟩] "A" "B" = 4 := by
  constructor
  · intro key recs p q
    unfold dist_matrix spec_distance person_vector
    rw [cityblock_map]
  · have hkeys : snack_keys (fun t => t)
        [⟨"A", "S1", 5, 5, 5, 5⟩, ⟨"B", "S1", 1, 1, 1, 1⟩] = ["S1"] := rfl
    have hA : pair_group (fun t => t)
        [⟨"A", "S1", 5, 5, 5, 5⟩, ⟨"B", "S1", 1, 1, 1, 1⟩] "A" "S1" =
        [⟨"A", "S1", 5, 5, 5, 5⟩] := rfl
    have hB : pair_group (fun t => t)
        [⟨"A", "S1", 5, 5, 5, 5⟩, ⟨"B", "S1", 1, 1, 1, 1⟩] "B" "S1" =
        [⟨"B", "S1", 1, 1, 1, 1⟩] := rfl
    have hpA : person_snack (fun t => t)
        [⟨"A", "S1", 5, 5, 5, 5⟩, ⟨"B", "S1", 1, 1, 1, 1⟩] "A" "S1" = 5 := by
      unfold person_snack
      rw [hA]
      norm_num [cat_sum, list_mean, Record.score]
    have hpB : person_snack (fun t => t)
        [⟨"A", "S1", 5, 5, 5, 5⟩, ⟨"B", "S1", 1, 1, 1, 1⟩] "B" "S1" = 1 := by
      unfold person_snack
      rw [hB]
      norm_num [cat_sum, list_mean, Record.score]
    unfold dist_matrix person_vector
    rw [hkeys]
    simp only [List.map_cons, List.map_nil]
    rw [hpA, hpB]
    norm_num [cityblock]

/-- C6: with at least 2 distinct people the distance matrix is symmetric:
the entry at (p, q) equals the entry at (q, p). -/
theorem dist_matrix_symm (key : String → String) (recs : List Record)
    (p q : String) (h : 2 ≤ (people_of recs).length) :
    dist_matrix key recs p q = dist_matrix key recs q p := by
  unfold dist_matrix
  rw [cityblock_comm]

/-- C6 witness: symmetry between the two people of a concrete dataset. -/
theorem dist_matrix_symm_witness :
    2 ≤ (people_of [⟨"A", "S1", 5, 5, 5, 5⟩, ⟨"B", "S2", 1, 1, 1, 1⟩]).length ∧
    dist_matrix (fun t => t) [⟨"A", "S1", 5, 5, 5, 5⟩, ⟨"B", "S2", 1, 1, 1, 1⟩]
        "A" "B" =
      dist_matrix (fun t => t) [⟨"A", "S1", 5, 5, 5, 5⟩, ⟨"B", "S2", 1, 1, 1, 1⟩]
        "B" "A" :=
  ⟨by decide, dist_matrix_symm _ _ _ _ (by decide)⟩

/-- C9: a (person, snack) cell of the full grid with no record behind it is
imputed with the one scalar `global_mean`, the arithmetic mean of every
individual category score of every cleaned record (4 scores per record). -/
theorem person_snack_imputes_global_mean (key : String → String)
    (recs : List Record) (p s : String)
    (h : pair_group key recs p s = []) :
    person_snack key recs p s = global_mean recs ∧
    global_mean recs =
      (recs.map fun r => r.scoreList.sum).sum / (4 * recs.length) := by
  constructor
  · unfold person_snack
    rw [h]
    rfl
  · unfold global_mean list_mean
    rw [scoreList_sum_flatMap, scoreList_length_flatMap]
    norm_cast

/-- C9 witness: person A never rated snack S2, so that grid cell is the
global mean of all 8 scores. -/
theorem person_snack_imputes_global_mean_witness :
    pair_group (fun t => t) [⟨"A", "S1", 1, 2, 3, 4⟩, ⟨"B", "S2", 5, 5, 5, 5⟩]
        "A" "S2" = [] ∧
    (person_snack (fun t => t)
        [⟨"A", "S1", 1, 2, 3, 4⟩, ⟨"B", "S2", 5, 5, 5, 5⟩] "A" "S2" =
      global_mean [⟨"A", "S1", 1, 2, 3, 4⟩, ⟨"B", "S2", 5, 5, 5, 5⟩] ∧
    global_mean [⟨"A", "S1", 1, 2, 3, 4⟩, ⟨"B", "S2", 5, 5, 5, 5⟩] =
      ([⟨"A", "S1", 1, 2, 3, 4⟩, ⟨"B", "S2", 5, 5, 5, 5⟩].map
          fun r : Record => r.scoreList.sum).sum /
        (4 * ([⟨"A", "S1", 1, 2, 3, 4⟩, ⟨"B", "S2", 5, 5, 5, 5⟩] :
          List Record).length)) :=
  ⟨rfl, person_snack_imputes_global_mean _ _ _ _ rfl⟩

/-- C1 counterexample: on a single-record snack with scores
(1.006, 1.006, 1.006, 1) the code's combined average (computed from the
already-rounded category means) is 1.01, while the mean of the unrounded
category means rounded once is 1.00 — so the combined average is not the
round-once value the claim describes. -/
theorem combined_average_not_round_once :
    combined_average (fun t => t)
      [⟨"A", "S1", 503/500, 503/500, 503/500, 1⟩] "S1" = 101/100 ∧
    combined_round_once (fun t => t)
      [⟨"A", "S1", 503/500, 503/500, 503/500, 1⟩] "S1" = 1 ∧
    (101 : ℚ)/100 ≠ 1 := by
  have hg : snack_group (fun t => t)
      [⟨"A", "S1", 503/500, 503/500, 503/500, 1⟩] "S1" =
      [⟨"A", "S1", 503/500, 503/500, 503/500, 1⟩] := rfl
  refine ⟨?_, ?_, by norm_num⟩
  · unfold combined_average cat_sum cat_avg_rounded cat_avg
    rw [hg]
    norm_num [list_mean, Record.score, round2]
  · unfold combined_round_once cat_sum cat_avg
    rw [hg]
    norm_num [list_mean, Record.score, round2]

/-- C1 amended: every row of the aggregation output stores as its combined
average the mean of its own (already rounded, as stored) category averages,
rounded again to 2 decimals — the rounding happens before the averaging,
not once after it. -/
theorem combined_average_from_rounded_means (key : String → String)
    (recs : List Record) (row : SnackRow) (h : row ∈ snack_avgs key recs) :
    row.combined = round2 (cat_sum row.avgs / 4) := by
  unfold snack_avgs at h
  rw [List.mem_reverse] at h
  have h2 : row ∈ (snack_rows key recs).reverse :=
    (List.perm_insertionSort row_le _).mem_iff.mp h
  rw [List.mem_reverse] at h2
  rcases List.mem_map.mp h2 with ⟨s, hs, rfl⟩
  rfl

/-- C1 amended witness: the single output row of a one-record dataset. -/
theorem combined_average_from_rounded_means_witness :
    snack_row (fun t => t) [⟨"A", "S1", 503/500, 503/500, 503/500, 1⟩] "S1" ∈
      snack_avgs (fun t => t) [⟨"A", "S1", 503/500, 503/500, 503/500, 1⟩] ∧
    (snack_row (fun t => t)
        [⟨"A", "S1", 503/500, 503/500, 503/500, 1⟩] "S1").combined =
      round2 (cat_sum (snack_row (fun t => t)
        [⟨"A", "S1", 503/500, 503/500, 503/500, 1⟩] "S1").avgs / 4) := by
  have hm : snack_row (fun t => t)
      [⟨"A", "S1", 503/500, 503/500, 503/500, 1⟩] "S1" ∈
      snack_avgs (fun t => t) [⟨"A", "S1", 503/500, 503/500, 503/500, 1⟩] :=
    List.mem_singleton.mpr rfl
  exact ⟨hm, combined_average_from_rounded_means _ _ _ hm⟩

/-- C4: the aggregation output is sorted by combined average in descending
order, is a permutation of the per-snack rows, and the sort is stable: for
every value c the rows whose combined average is c appear in exactly their
pre-sort (groupby) order, so any two snacks with equal combined average
keep their pre-sort relative order. -/
theorem snack_avgs_sorted_stable_descending (key : String → String)
    (recs : List Record) :
    List.Sorted (fun a b => row_le b a) (snack_avgs key recs) ∧
    (snack_avgs key recs).Perm (snack_rows key recs) ∧
    ∀ c : ℚ, (snack_avgs key recs).filter (fun row => row.combined == c) =
      (snack_rows key recs).filter (fun row => row.combined == c) := by
  refine ⟨?_, ?_, snack_avgs_filter_combined key recs⟩
  · exact List.pairwise_reverse.mpr
      (List.sorted_insertionSort row_le (snack_rows key recs).reverse)
  · exact (List.reverse_perm _).trans
      ((List.perm_insertionSort row_le _).trans (List.reverse_perm _))

/-- C5 counterexample: a snack with the single raw flavour value 0.006 gets
the stored (rounded) category average 0.01, which lies outside the interval
[0.006, 0.006] spanned by the raw values of that category. -/
theorem cat_avg_rounded_escapes_range :
    ((snack_group (fun t => t)
        [⟨"A", "S1", 3/500, 3/500, 3/500, 3/500⟩] "S1").map
      (fun r => r.score 0)) = [3/500] ∧
    cat_avg_rounded (fun t => t)
      [⟨"A", "S1", 3/500, 3/500, 3/500, 3/500⟩] "S1" 0 = 1/100 ∧
    ¬ ((1 : ℚ)/100 ≤ 3/500) := by
  refine ⟨rfl, ?_, by norm_num⟩
  have hg : snack_group (fun t => t)
      [⟨"A", "S1", 3/500, 3/500, 3/500, 3/500⟩] "S1" =
      [⟨"A", "S1", 3/500, 3/500, 3/500, 3/500⟩] := rfl
  unfold cat_avg_rounded cat_avg
  rw [hg]
  norm_num [list_mean, Record.score, round2]

/-- C5 amended: the unrounded per-category mean of a snack always lies
within the closed interval spanned by that category's raw values for that
snack; it is only the subsequent rounding to 2 decimals of the stored value
that can leave the interval (by at most 0.005, as the counterexample
shows). -/
theorem cat_avg_within_bounds (key : String → String) (recs : List Record)
    (s : String) (i : Fin 4) (lo hi : ℚ)
    (hne : snack_group key recs s ≠ [])
    (hb : ∀ r ∈ snack_group key recs s, lo ≤ r.score i ∧ r.score i ≤ hi) :
    lo ≤ cat_avg key recs s i ∧ cat_avg key recs s i ≤ hi := by
  have hne' : (snack_group key recs s).map (fun r => r.score i) ≠ [] := by
    intro hmap
    exact hne (List.map_eq_nil_iff.mp hmap)
  constructor
  · refine le_list_mean hne' ?_
    intro x hx
    rcases List.mem_map.mp hx with ⟨r, hr, rfl⟩
    exact (hb r hr).1
  · refine list_mean_le hne' ?_
    intro x hx
    rcases List.mem_map.mp hx with ⟨r, hr, rfl⟩
    exact (hb r hr).2

/-- C5 amended witness: the flavour mean of a snack whose only flavour
value is 1 lies within [1, 1]. -/
theorem cat_avg_within_bounds_witness :
    (snack_group (fun t => t)
        [⟨"A", "S1", 1, 2, 3, 4⟩, ⟨"B", "S2", 5, 5, 5, 5⟩] "S1" ≠ [] ∧
      (∀ r ∈ snack_group (fun t => t)
          [⟨"A", "S1", 1, 2, 3, 4⟩, ⟨"B", "S2", 5, 5, 5, 5⟩] "S1",
        (1 : ℚ) ≤ r.score 0 ∧ r.score 0 ≤ 1)) ∧
    ((1 : ℚ) ≤ cat_avg (fun t => t)
        [⟨"A", "S1", 1, 2, 3, 4⟩, ⟨"B", "S2", 5, 5, 5, 5⟩] "S1" 0 ∧
      cat_avg (fun t => t)
        [⟨"A", "S1", 1, 2, 3, 4⟩, ⟨"B", "S2", 5, 5, 5, 5⟩] "S1" 0 ≤ 1) := by
  have h1 : snack_group (fun t => t)
      [⟨"A", "S1", 1, 2, 3, 4⟩, ⟨"B", "S2", 5, 5, 5, 5⟩] "S1" ≠ [] := by
    intro hc
    exact List.noConfusion hc
  have h2 : ∀ r ∈ snack_group (fun t => t)
      [⟨"A", "S1", 1, 2, 3, 4⟩, ⟨"B", "S2", 5, 5, 5, 5⟩] "S1",
      (1 : ℚ) ≤ r.score 0 ∧ r.score 0 ≤ 1 := by
    intro r hr
    rcases List.mem_singleton.mp hr with rfl
    constructor <;> norm_num [Record.score]
  exact ⟨⟨h1, h2⟩, cat_avg_within_bounds _ _ _ _ _ _ h1 h2⟩

/-- C7: nearest and farthest queries never return the queried person (the
diagonal is excluded); a second person with an identical imputed affinity
vector has distance exactly 0 from the queried person and the chosen
nearest match then also has distance exactly 0. -/
theorem similar_queries_never_self (key : String → String)
    (recs : List Record) (p q : String)
    (hq : q ∈ people_of recs) (hqp : q ≠ p) :
    (∀ m, most_similar key recs p = some m → m ≠ p) ∧
    (∀ m, least_similar key recs p = some m → m ≠ p) ∧
    (person_vector key recs p = person_vector key recs q →
      dist_matrix key recs p q = 0 ∧
      ∃ m, most_similar key recs p = some m ∧ dist_matrix key recs p m = 0) := by
  have hqb : (q == p) = false := beq_eq_false_iff_ne.mpr hqp
  have hmemq : q ∈ (people_of recs).filter (fun x => !(x == p)) :=
    List.mem_filter.mpr ⟨hq, by rw [hqb]; rfl⟩
  refine ⟨?_, ?_, ?_⟩
  · intro m hm
    have h2 := (List.mem_filter.mp (argmin_first_mem hm)).2
    simpa [beq_eq_false_iff_ne] using h2
  · intro m hm
    have h2 := (List.mem_filter.mp (argmax_first_mem hm)).2
    simpa [beq_eq_false_iff_ne] using h2
  · intro hvec
    have hdq : dist_matrix key recs p q = 0 := by
      unfold dist_matrix
      rw [hvec, cityblock_self, zero_div]
    refine ⟨hdq, ?_⟩
    have hne : (people_of recs).filter (fun x => !(x == p)) ≠ [] :=
      List.ne_nil_of_mem hmemq
    rcases argmin_first_isSome (f := dist_matrix key recs p) hne with ⟨m, hm⟩
    refine ⟨m, hm, ?_⟩
    have hle := argmin_first_le hm q hmemq
    have hge : 0 ≤ dist_matrix key recs p m := by
      unfold dist_matrix
      exact div_nonneg (cityblock_nonneg _ _) (Nat.cast_nonneg _)
    rw [hdq] at hle
    linarith

/-- C7 witness: two people with identical ratings of the one snack. -/
theorem similar_queries_never_self_witness :
    ("B" ∈ people_of [⟨"A", "S1", 2, 2, 2, 2⟩, ⟨"B", "S1", 2, 2, 2, 2⟩] ∧
      "B" ≠ "A") ∧
    ((∀ m, most_similar (fun t => t)
        [⟨"A", "S1", 2, 2, 2, 2⟩, ⟨"B", "S1", 2, 2, 2, 2⟩] "A" = some m →
        m ≠ "A") ∧
    (∀ m, least_similar (fun t => t)
        [⟨"A", "S1", 2, 2, 2, 2⟩, ⟨"B", "S1", 2, 2, 2, 2⟩] "A" = some m →
        m ≠ "A") ∧
    (person_vector (fun t => t)
        [⟨"A", "S1", 2, 2, 2, 2⟩, ⟨"B", "S1", 2, 2, 2, 2⟩] "A" =
      person_vector (fun t => t)
        [⟨"A", "S1", 2, 2, 2, 2⟩, ⟨"B", "S1", 2, 2, 2, 2⟩] "B" →
      dist_matrix (fun t => t)
        [⟨"A", "S1", 2, 2, 2, 2⟩, ⟨"B", "S1", 2, 2, 2, 2⟩] "A" "B" = 0 ∧
      ∃ m, most_similar (fun t => t)
          [⟨"A", "S1", 2, 2, 2, 2⟩, ⟨"B", "S1", 2, 2, 2, 2⟩] "A" = some m ∧
        dist_matrix (fun t => t)
          [⟨"A", "S1", 2, 2, 2, 2⟩, ⟨"B", "S1", 2, 2, 2, 2⟩] "A" m = 0)) :=
  ⟨⟨by decide, by decide⟩,
    similar_queries_never_self _ _ _ _ (by decide) (by decide)⟩

/-- C10: when the snack labeling is injective over the snack ids present in
the cleaned data, grouping the similarity pipeline by snack label (new
script) yields exactly the distance values and most/least similar answers
of grouping by raw snack id (old script). -/
theorem similarity_label_refinement (names : SnackNames) (recs : List Record)
    (H : ∀ a ∈ recs.map (fun r => r.snack), ∀ b ∈ recs.map (fun r => r.snack),
        snack_label names a = snack_label names b → a = b) :
    (∀ p q, dist_matrix (snack_label names) recs p q =
      dist_matrix (fun t => t) recs p q) ∧
    (∀ p, most_similar (snack_label names) recs p =
        most_similar (fun t => t) recs p ∧
      least_similar (snack_label names) recs p =
        least_similar (fun t => t) recs p) := by
  have hdist : ∀ p q, dist_matrix (snack_label names) recs p q =
      dist_matrix (fun t => t) recs p q := by
    intro p q
    unfold dist_matrix
    rw [person_vector_label H, person_vector_label H, snack_keys_label H,
      List.length_map]
  refine ⟨hdist, fun p => ⟨?_, ?_⟩⟩
  · unfold most_similar
    rw [funext (hdist p)]
  · unfold least_similar
    rw [funext (hdist p)]

/-- C10 witness: with an empty names table every label is the raw id, which
is injective, and the two pipelines agree on a two-person dataset. -/
theorem similarity_label_refinement_witness :
    (∀ a ∈ ([⟨"A", "S1", 1, 2, 3, 4⟩, ⟨"B", "S2", 5, 5, 5, 5⟩] :
        List Record).map (fun r => r.snack),
      ∀ b ∈ ([⟨"A", "S1", 1, 2, 3, 4⟩, ⟨"B", "S2", 5, 5, 5, 5⟩] :
        List Record).map (fun r => r.snack),
      snack_label ([] : SnackNames) a = snack_label ([] : SnackNames) b →
        a = b) ∧
    ((∀ p q, dist_matrix (snack_label ([] : SnackNames))
        [⟨"A", "S1", 1, 2, 3, 4⟩, ⟨"B", "S2", 5, 5, 5, 5⟩] p q =
      dist_matrix (fun t => t)
        [⟨"A", "S1", 1, 2, 3, 4⟩, ⟨"B", "S2", 5, 5, 5, 5⟩] p q) ∧
    (∀ p, most_similar (snack_label ([] : SnackNames))
        [⟨"A", "S1", 1, 2, 3, 4⟩, ⟨"B", "S2", 5, 5, 5, 5⟩] p =
        most_similar (fun t => t)
          [⟨"A", "S1", 1, 2, 3, 4⟩, ⟨"B", "S2", 5, 5, 5, 5⟩] p ∧
      least_similar (snack_label ([] : SnackNames))
        [⟨"A", "S1", 1, 2, 3, 4⟩, ⟨"B", "S2", 5, 5, 5, 5⟩] p =
        least_similar (fun t => t)
          [⟨"A", "S1", 1, 2, 3, 4⟩, ⟨"B", "S2", 5, 5, 5, 5⟩] p)) :=
  ⟨fun _ _ _ _ h => h, similarity_label_refinement _ _ (fun _ _ _ _ h => h)⟩

end SnackDash
